import Mathlib

/-!
Verification of `contextutil.MultiContext` (package `uberpkg/contextutil`).

The Go source merges several `context.Context` values into one.  We give a
shallow embedding:

* the pure query methods `Deadline` and `Value` become pure Lean functions
  over a list of input contexts;
* the concurrent part (`selectCtxs` watcher goroutines, `cancel` guarded by
  `sync.Once`, the `done` channel and the unsynchronized `err` field) becomes
  a small-step transition system: each atomic read/write of shared state is
  one step, goroutine interleaving is the nondeterministic choice of which
  enabled step runs next.

`time.Time` is modelled by its internal wall-clock representation: the
seconds field `ext` (an `Int` wrapped into the signed 64-bit range, equal to
the Unix seconds plus the internal epoch offset 62135596800) and the
nanoseconds field `nsec`.  `time.Time.Before` compares `(ext, nsec)`
lexicographically, which is what the Go implementation does for wall-clock
times.
-/

set_option autoImplicit false

namespace Contextutil

/-- Wrap an integer into the signed 64-bit range, as Go int64 arithmetic does. -/
def wrap64 (x : Int) : Int := (x + 2 ^ 63) % 2 ^ 64 - 2 ^ 63

/-- Model of Go `time.Time` (wall clock form): internal seconds `ext` and
nanoseconds `nsec`. -/
structure GoTime where
  ext : Int
  nsec : Int
  deriving DecidableEq, Repr

/-- Model of `time.Unix(sec, nsec)` for normalized `nsec`: the internal
seconds field is `sec + 62135596800` wrapped to int64. -/
def timeUnix (sec nsec : Int) : GoTime :=
  ⟨wrap64 (sec + 62135596800), nsec⟩

/-- Model of `time.Time.Before`: lexicographic comparison of the internal
seconds and the nanoseconds. -/
def GoTime.Before (a b : GoTime) : Prop :=
  a.ext < b.ext ∨ (a.ext = b.ext ∧ a.nsec < b.nsec)

instance (a b : GoTime) : Decidable (a.Before b) :=
  if h : a.ext < b.ext ∨ (a.ext = b.ext ∧ a.nsec < b.nsec) then .isTrue h
  else .isFalse h

/-- A `time.Time` produced by the `time` package: `ext` in the int64 range
and `nsec` normalized to `[0, 10^9)`. -/
def GoTime.Valid (t : GoTime) : Prop :=
  -(2 ^ 63) ≤ t.ext ∧ t.ext < 2 ^ 63 ∧ 0 ≤ t.nsec ∧ t.nsec ≤ 999999999

/-- The sentinel `time.Unix(1<<63-62135596801, 999999999)` that
`multiContext.Deadline` starts its minimum scan from. -/
def maxSentinel : GoTime := timeUnix (2 ^ 63 - 62135596801) 999999999

/-- Model of a Go error value as seen through `ctx.Err()`:
`context.Canceled`, `context.DeadlineExceeded`, or any other error. -/
inductive GoError where
  | canceled
  | deadlineExceeded
  | other (n : Nat)
  deriving DecidableEq, Repr

/-- Model of an input `context.Context` as consumed by `multiContext`:
its `Deadline()` result, the `Err()` value it reports once its own done
channel closes, and its `Value` lookup (`none` models a nil interface). -/
structure InputCtx where
  deadline : Option GoTime
  errv : GoError
  vals : Nat → Option Nat

/-- The loop body of `multiContext.Deadline`: fold over the input contexts
keeping the accumulators `min` and `found`. -/
def deadlineLoop : List InputCtx → GoTime → Bool → GoTime × Bool
  | [], min, found => (min, found)
  | c :: rest, min, found =>
    match c.deadline with
    | some d => deadlineLoop rest (if d.Before min then d else min) true
    | none => deadlineLoop rest min found

/-- Model of `multiContext.Deadline`: scan all input contexts for the
smallest deadline, starting from the sentinel maximum time. -/
def Deadline (ctxs : List InputCtx) : GoTime × Bool :=
  deadlineLoop ctxs maxSentinel false

/-- Model of `multiContext.Value`: return the first non-nil value among the
input contexts, in the order given. -/
def Value : List InputCtx → Nat → Option Nat
  | [], _ => none
  | c :: rest, key =>
    match c.vals key with
    | some v => some v
    | none => Value rest key

theorem maxSentinel_eq : maxSentinel = ⟨2 ^ 63 - 1, 999999999⟩ := by
  unfold maxSentinel timeUnix wrap64
  norm_num

theorem before_sentinel_of_valid {t : GoTime} (h : t.Valid) :
    ¬ maxSentinel.Before t := by
  obtain ⟨e, n⟩ := t
  rcases h with ⟨_, h2, _, h4⟩
  rw [maxSentinel_eq]
  rintro (h | ⟨h, h'⟩) <;> dsimp only at * <;> omega

theorem before_irrefl (t : GoTime) : ¬ t.Before t := by
  rintro (h | ⟨_, h⟩) <;> omega

theorem before_not_not {a b : GoTime} (hab : ¬ a.Before b) (hba : ¬ b.Before a) :
    a = b := by
  unfold GoTime.Before at hab hba
  push_neg at hab hba
  cases a; cases b
  simp_all
  omega

theorem not_before_trans {a b c : GoTime} (hab : ¬ a.Before b) (hbc : ¬ b.Before c) :
    ¬ a.Before c := by
  unfold GoTime.Before at *
  push_neg at hab hbc
  rintro (h | ⟨h, h'⟩) <;> omega

theorem before_trans {a b c : GoTime} (hab : a.Before b) (hbc : b.Before c) :
    a.Before c := by
  unfold GoTime.Before at *
  rcases hab with h | ⟨h, h'⟩ <;> rcases hbc with g | ⟨g, g'⟩ <;>
    first
      | exact Or.inl (by omega)
      | exact Or.inr ⟨by omega, by omega⟩

/-- The `found` flag returned by the deadline loop: the initial flag or-ed
with whether any input carries a deadline. -/
theorem deadlineLoop_found (l : List InputCtx) (m : GoTime) (f : Bool) :
    (deadlineLoop l m f).2 = (f || l.any fun c => c.deadline.isSome) := by
  induction l generalizing m f with
  | nil => simp [deadlineLoop]
  | cons c rest ih =>
    cases hd : c.deadline <;> simp [deadlineLoop, hd, ih]

/-- The time returned by the deadline loop is at most the initial accumulator
and at most every deadline in the list. -/
theorem deadlineLoop_le (l : List InputCtx) (m : GoTime) (f : Bool) :
    ¬ m.Before (deadlineLoop l m f).1 ∧
    ∀ c ∈ l, ∀ d, c.deadline = some d → ¬ d.Before (deadlineLoop l m f).1 := by
  induction l generalizing m f with
  | nil =>
    refine ⟨before_irrefl m, ?_⟩
    intro c hc
    simp at hc
  | cons c rest ih =>
    cases hd : c.deadline with
    | none =>
      obtain ⟨h1, h2⟩ := ih m f
      refine ⟨by simpa [deadlineLoop, hd] using h1, ?_⟩
      intro c' hc' d hd'
      rcases List.mem_cons.mp hc' with rfl | hmem
      · rw [hd] at hd'; cases hd'
      · simpa [deadlineLoop, hd] using h2 c' hmem d hd'
    | some d =>
      by_cases hb : d.Before m
      · obtain ⟨h1, h2⟩ := ih d true
        have hres : deadlineLoop (c :: rest) m f = deadlineLoop rest d true := by
          simp [deadlineLoop, hd, hb]
        refine ⟨?_, ?_⟩
        · rw [hres]
          intro hmb
          exact h1 (before_trans hb hmb)
        · intro c' hc' d' hd'
          rcases List.mem_cons.mp hc' with rfl | hmem
          · rw [hd] at hd'
            injection hd' with hdd
            subst hdd
            rw [hres]; exact h1
          · rw [hres]; exact h2 c' hmem d' hd'
      · obtain ⟨h1, h2⟩ := ih m true
        have hres : deadlineLoop (c :: rest) m f = deadlineLoop rest m true := by
          simp [deadlineLoop, hd, hb]
        refine ⟨by rw [hres]; exact h1, ?_⟩
        intro c' hc' d' hd'
        rcases List.mem_cons.mp hc' with rfl | hmem
        · rw [hd] at hd'
          injection hd' with hdd
          subst hdd
          rw [hres]
          exact not_before_trans hb h1
        · rw [hres]; exact h2 c' hmem d' hd'

/-- The time returned by the deadline loop is the initial accumulator or one
of the deadlines in the list. -/
theorem deadlineLoop_mem (l : List InputCtx) (m : GoTime) (f : Bool) :
    (deadlineLoop l m f).1 = m ∨
    ∃ c ∈ l, c.deadline = some (deadlineLoop l m f).1 := by
  induction l generalizing m f with
  | nil => exact Or.inl rfl
  | cons c rest ih =>
    cases hd : c.deadline with
    | none =>
      have hres : deadlineLoop (c :: rest) m f = deadlineLoop rest m f := by
        simp [deadlineLoop, hd]
      rw [hres]
      rcases ih m f with h | ⟨c', hc', h⟩
      · exact Or.inl h
      · exact Or.inr ⟨c', List.mem_cons_of_mem _ hc', h⟩
    | some d =>
      by_cases hb : d.Before m
      · have hres : deadlineLoop (c :: rest) m f = deadlineLoop rest d true := by
          simp [deadlineLoop, hd, hb]
        rw [hres]
        rcases ih d true with h | ⟨c', hc', h⟩
        · exact Or.inr ⟨c, List.mem_cons_self _ _, by rw [hd, h]⟩
        · exact Or.inr ⟨c', List.mem_cons_of_mem _ hc', h⟩
      · have hres : deadlineLoop (c :: rest) m f = deadlineLoop rest m true := by
          simp [deadlineLoop, hd, hb]
        rw [hres]
        rcases ih m true with h | ⟨c', hc', h⟩
        · exact Or.inl h
        · exact Or.inr ⟨c', List.mem_cons_of_mem _ hc', h⟩

/-- When no input carries a deadline the loop returns its accumulators
unchanged. -/
theorem deadlineLoop_none (l : List InputCtx) (m : GoTime) (f : Bool)
    (h : ∀ c ∈ l, c.deadline = none) :
    deadlineLoop l m f = (m, f) := by
  induction l generalizing m f with
  | nil => rfl
  | cons c rest ih =>
    have hc := h c (List.mem_cons_self _ _)
    rw [deadlineLoop, hc]
    exact ih m f fun c' hc' => h c' (List.mem_cons_of_mem _ hc')

/-- Value of the merged context on a list whose head carries no value for the
key: the scan moves on to the tail. -/
theorem value_append_none (pre rest : List InputCtx) (key : Nat)
    (h : ∀ c ∈ pre, c.vals key = none) :
    Value (pre ++ rest) key = Value rest key := by
  induction pre with
  | nil => rfl
  | cons c pre ih =>
    have hc := h c (List.mem_cons_self _ _)
    rw [List.cons_append, Value, hc]
    exact ih fun c' hc' => h c' (List.mem_cons_of_mem _ hc')

/-- Claim C1: `Deadline` reports `ok = false` exactly when no input carries a
deadline (in particular on the empty list), and when some input does, the
returned time is one of the inputs' deadlines and is not later than any
input's deadline (a minimum, any minimal value on ties). -/
theorem deadline_min (ctxs : List InputCtx)
    (hval : ∀ c ∈ ctxs, ∀ d, c.deadline = some d → d.Valid) :
    ((Deadline ctxs).2 = false ↔ ∀ c ∈ ctxs, c.deadline = none) ∧
    ((Deadline ctxs).2 = true →
      (∃ c ∈ ctxs, c.deadline = some (Deadline ctxs).1) ∧
      ∀ c ∈ ctxs, ∀ d, c.deadline = some d → ¬ d.Before (Deadline ctxs).1) := by
  constructor
  · rw [Deadline, deadlineLoop_found]
    simp only [Bool.false_or, List.any_eq_false]
    constructor
    · intro h c hc
      have h' := h c hc
      cases hcd : c.deadline with
      | none => rfl
      | some d => rw [hcd] at h'; simp at h'
    · intro h c hc
      simp [h c hc]
  · intro hfound
    have hmem := deadlineLoop_mem ctxs maxSentinel false
    have hle := deadlineLoop_le ctxs maxSentinel false
    rcases hmem with hsent | ⟨c, hc, hd⟩
    · have hex : ∃ c ∈ ctxs, c.deadline.isSome := by
        rw [Deadline, deadlineLoop_found] at hfound
        simpa [List.any_eq_true] using hfound
      obtain ⟨c, hc, hcs⟩ := hex
      obtain ⟨d, hd⟩ := Option.isSome_iff_exists.mp hcs
      have hdle : ¬ d.Before (Deadline ctxs).1 := hle.2 c hc d hd
      have hds : ¬ maxSentinel.Before d := before_sentinel_of_valid (hval c hc d hd)
      have : d = maxSentinel := by
        refine before_not_not ?_ ?_
        · rw [Deadline] at hdle
          rw [hsent] at hdle
          exact hdle
        · exact hds
      refine ⟨⟨c, hc, ?_⟩, hle.2⟩
      rw [hd, this, Deadline, hsent]
    · exact ⟨⟨c, hc, hd⟩, hle.2⟩

/-- A deadline-free context used in concrete checks. -/
def plainCtx : InputCtx := ⟨none, .canceled, fun _ => none⟩

/-- A context carrying only a deadline, used in concrete checks. -/
def dlCtx (t : GoTime) : InputCtx := ⟨some t, .canceled, fun _ => none⟩

theorem deadline_min_witness :
    (∀ c ∈ [dlCtx ⟨5, 0⟩, plainCtx, dlCtx ⟨3, 1⟩], ∀ d, c.deadline = some d → d.Valid) ∧
    (((Deadline [dlCtx ⟨5, 0⟩, plainCtx, dlCtx ⟨3, 1⟩]).2 = false ↔
      ∀ c ∈ [dlCtx ⟨5, 0⟩, plainCtx, dlCtx ⟨3, 1⟩], c.deadline = none) ∧
     ((Deadline [dlCtx ⟨5, 0⟩, plainCtx, dlCtx ⟨3, 1⟩]).2 = true →
      (∃ c ∈ [dlCtx ⟨5, 0⟩, plainCtx, dlCtx ⟨3, 1⟩],
        c.deadline = some (Deadline [dlCtx ⟨5, 0⟩, plainCtx, dlCtx ⟨3, 1⟩]).1) ∧
      ∀ c ∈ [dlCtx ⟨5, 0⟩, plainCtx, dlCtx ⟨3, 1⟩], ∀ d, c.deadline = some d →
        ¬ d.Before (Deadline [dlCtx ⟨5, 0⟩, plainCtx, dlCtx ⟨3, 1⟩]).1)) := by
  have hval : ∀ c ∈ [dlCtx ⟨5, 0⟩, plainCtx, dlCtx ⟨3, 1⟩], ∀ d, c.deadline = some d → d.Valid := by
    intro c hc d hd
    simp only [List.mem_cons, List.not_mem_nil, or_false] at hc
    rcases hc with rfl | rfl | rfl
    · cases hd
      norm_num [GoTime.Valid]
    · cases hd
    · cases hd
      norm_num [GoTime.Valid]
  exact ⟨hval, deadline_min _ hval⟩

/-- Claim C10: when no input reports a deadline (the empty list included),
`Deadline` returns the sentinel `time.Unix(1<<63-62135596801, 999999999)`
together with `ok = false`, not the zero time. -/
theorem deadline_no_deadline_sentinel (ctxs : List InputCtx)
    (h : ∀ c ∈ ctxs, c.deadline = none) :
    Deadline ctxs = (timeUnix (2 ^ 63 - 62135596801) 999999999, false) := by
  rw [Deadline, deadlineLoop_none ctxs _ _ h]
  rfl

theorem deadline_no_deadline_sentinel_witness :
    (∀ c ∈ [plainCtx, plainCtx], c.deadline = none) ∧
    Deadline [plainCtx, plainCtx] = (timeUnix (2 ^ 63 - 62135596801) 999999999, false) ∧
    Deadline [] = (timeUnix (2 ^ 63 - 62135596801) 999999999, false) := by
  have h2 : ∀ c ∈ [plainCtx, plainCtx], c.deadline = none := by
    intro c hc
    simp only [List.mem_cons, List.not_mem_nil, or_false, or_self] at hc
    subst hc
    rfl
  exact ⟨h2, deadline_no_deadline_sentinel _ h2,
    deadline_no_deadline_sentinel [] (by intro c hc; cases hc)⟩

/-- Claim C2: `Value` returns `none` exactly when every input (or the empty
list) returns `none` for the key, and otherwise returns the value of the
first input, in construction order, whose lookup is not `none`; inputs after
that one are never the source of the result. -/
theorem value_first_wins (ctxs : List InputCtx) (key : Nat) :
    (Value ctxs key = none ↔ ∀ c ∈ ctxs, c.vals key = none) ∧
    (∀ pre c post, ctxs = pre ++ c :: post →
      (∀ c' ∈ pre, c'.vals key = none) → c.vals key ≠ none →
      Value ctxs key = c.vals key) := by
  constructor
  · induction ctxs with
    | nil => simp [Value]
    | cons c rest ih =>
      cases hv : c.vals key with
      | some v =>
        simp only [Value, hv]
        constructor
        · intro h; cases h
        · intro h
          have := h c (List.mem_cons_self _ _)
          rw [hv] at this; cases this
      | none =>
        simp only [Value, hv]
        rw [ih]
        constructor
        · intro h c' hc'
          rcases List.mem_cons.mp hc' with rfl | hmem
          · exact hv
          · exact h c' hmem
        · intro h c' hc'
          exact h c' (List.mem_cons_of_mem _ hc')
  · intro pre c post hctxs hpre hc
    rw [hctxs, value_append_none pre _ key hpre, Value]
    cases hv : c.vals key with
    | some v => rfl
    | none => exact absurd hv hc

/-- A context carrying only key-value pairs, used in concrete checks. -/
def valCtx (f : Nat → Option Nat) : InputCtx := ⟨none, .canceled, f⟩

theorem value_first_wins_witness :
    Value [valCtx fun k => if k = 1 then some 1 else none,
           valCtx fun k => if k = 1 then some 2 else none] 1 = some 1 ∧
    Value [valCtx fun k => if k = 1 then some 1 else none,
           valCtx fun k => if k = 1 then some 2 else none] 3 = none := by
  constructor
  · have := (value_first_wins [valCtx fun k => if k = 1 then some 1 else none,
      valCtx fun k => if k = 1 then some 2 else none] 1).2 []
      (valCtx fun k => if k = 1 then some 1 else none)
      [valCtx fun k => if k = 1 then some 2 else none] rfl
      (by intro c hc; cases hc) (by simp [valCtx])
    rw [this]
    rfl
  · exact (value_first_wins _ 3).1.mpr (by
      intro c hc
      simp only [List.mem_cons, List.not_mem_nil, or_false] at hc
      rcases hc with rfl | rfl <;> rfl)

/-!
Concurrent part of the source.  A goroutine per input runs

  select
  case <-ctx.Done():  mc.err = ctx.Err(); mc.cancel()
  case <-mc.done:

and `cancel` runs `once.Do(func() { close(mc.done); if mc.err == nil { mc.err = context.Canceled } })`.
Every atomic access of the shared fields `done`, `err` and the `sync.Once`
flag is one transition; the interleaving of goroutines is the choice of the
next enabled action.
-/

/-- Program counter of one watcher goroutine spawned by `selectCtxs`. -/
inductive WPC where
  /-- blocked in the `select`. -/
  | waiting
  /-- took the `<-ctx.Done()` branch and wrote `mc.err`; about to call `mc.cancel()`. -/
  | cancelCall
  /-- inside the `once.Do` body: closed `mc.done`, about to run the error default. -/
  | inOnce
  /-- returned. -/
  | finished
  deriving DecidableEq, Repr

/-- Program counter of one invocation of the returned cancel function. -/
inductive CPC where
  /-- about to execute `once.Do`. -/
  | start
  /-- inside the `once.Do` body: closed `mc.done`, about to run the error default. -/
  | inOnce
  /-- returned. -/
  | finished
  deriving DecidableEq, Repr

/-- State of the `sync.Once` guarding `multiContext.cancel`. -/
inductive OnceSt where
  | unused
  | running
  | used
  deriving DecidableEq, Repr

/-- Shared state of one `multiContext` together with the program counters of
all goroutines touching it: `fired i` records whether input `i`'s own done
channel has closed, `done` whether `mc.done` is closed, `merr` the `mc.err`
field (`none` is Go `nil`), `once` the `sync.Once`, `wpc` the watcher
goroutines and `cancels` the outstanding invocations of the cancel function. -/
structure MCState where
  ctxs : List InputCtx
  fired : List Bool
  wpc : List WPC
  done : Bool
  merr : Option GoError
  once : OnceSt
  cancels : List CPC

/-- One atomic action of the system: an input completing, a watcher or a
cancel invocation advancing by one shared-memory access. -/
inductive Act where
  /-- input `i`'s own done channel closes (the input was cancelled or timed out). -/
  | fire (i : Nat)
  /-- watcher `i` wins the select on `<-ctx.Done()` and runs `mc.err = ctx.Err()`. -/
  | selectInput (i : Nat)
  /-- watcher `i` takes the `<-mc.done` branch and returns. -/
  | selectDone (i : Nat)
  /-- watcher `i` enters the `once.Do` body and runs `close(mc.done)`. -/
  | wEnterOnce (i : Nat)
  /-- watcher `i` calls `mc.cancel()` with the once already used: no-op return. -/
  | wSkipOnce (i : Nat)
  /-- watcher `i` finishes the once body: `if mc.err == nil { mc.err = context.Canceled }`. -/
  | wOnceBody (i : Nat)
  /-- the caller invokes the returned cancel function once more. -/
  | callCancel
  /-- cancel invocation `k` enters the `once.Do` body and runs `close(mc.done)`. -/
  | cEnterOnce (k : Nat)
  /-- cancel invocation `k` sees the once already used: no-op return. -/
  | cSkipOnce (k : Nat)
  /-- cancel invocation `k` finishes the once body. -/
  | cOnceBody (k : Nat)
  deriving DecidableEq, Repr

/-- The small-step semantics: `applyStep a s` is the next state if action `a`
is enabled in `s`, and `none` otherwise. -/
def applyStep (a : Act) (s : MCState) : Option MCState :=
  match a with
  | .fire i =>
    match s.fired.get? i with
    | some false => some { s with fired := s.fired.set i true }
    | _ => none
  | .selectInput i =>
    match s.wpc.get? i, s.fired.get? i, s.ctxs.get? i with
    | some .waiting, some true, some c =>
      some { s with merr := some c.errv, wpc := s.wpc.set i .cancelCall }
    | _, _, _ => none
  | .selectDone i =>
    match s.wpc.get? i, s.done with
    | some .waiting, true => some { s with wpc := s.wpc.set i .finished }
    | _, _ => none
  | .wEnterOnce i =>
    match s.wpc.get? i, s.once with
    | some .cancelCall, .unused =>
      some { s with once := .running, done := true, wpc := s.wpc.set i .inOnce }
    | _, _ => none
  | .wSkipOnce i =>
    match s.wpc.get? i, s.once with
    | some .cancelCall, .used => some { s with wpc := s.wpc.set i .finished }
    | _, _ => none
  | .wOnceBody i =>
    match s.wpc.get? i with
    | some .inOnce =>
      some { s with merr := if s.merr = none then some .canceled else s.merr,
                    once := .used, wpc := s.wpc.set i .finished }
    | _ => none
  | .callCancel => some { s with cancels := .start :: s.cancels }
  | .cEnterOnce k =>
    match s.cancels.get? k, s.once with
    | some .start, .unused =>
      some { s with once := .running, done := true, cancels := s.cancels.set k .inOnce }
    | _, _ => none
  | .cSkipOnce k =>
    match s.cancels.get? k, s.once with
    | some .start, .used => some { s with cancels := s.cancels.set k .finished }
    | _, _ => none
  | .cOnceBody k =>
    match s.cancels.get? k with
    | some .inOnce =>
      some { s with merr := if s.merr = none then some .canceled else s.merr,
                    once := .used, cancels := s.cancels.set k .finished }
    | _ => none

/-- The state `MultiContext(ctxs...)` returns in: `done` open, `err` nil,
once unused, one watcher per input blocked in its select, no cancel call yet. -/
def init (ctxs : List InputCtx) : MCState :=
  ⟨ctxs, List.replicate ctxs.length false, List.replicate ctxs.length .waiting,
    false, none, .unused, []⟩

/-- Run a list of actions from a state; `none` if some action is not enabled. -/
def run (s : MCState) : List Act → Option MCState
  | [] => some s
  | a :: rest =>
    match applyStep a s with
    | some s' => run s' rest
    | none => none

/-- A state is reachable if some interleaving of the goroutines produces it
from the initial state of some input list. -/
def Reachable (s : MCState) : Prop :=
  ∃ ctxs acts, run (init ctxs) acts = some s

theorem run_append (s : MCState) (l₁ l₂ : List Act) :
    run s (l₁ ++ l₂) = (run s l₁).bind fun s' => run s' l₂ := by
  induction l₁ generalizing s with
  | nil => rfl
  | cons a rest ih =>
    rw [List.cons_append, run, run]
    cases applyStep a s with
    | none => rfl
    | some s' => exact ih s'

theorem get?_set_cases {α : Type} {l : List α} {i j : Nat} {a b : α}
    (h : (l.set i a).get? j = some b) : l.get? j = some b ∨ (i = j ∧ b = a) := by
  by_cases hij : i = j
  · subst hij
    obtain ⟨hlt, _⟩ := List.get?_eq_some.mp h
    rw [List.length_set] at hlt
    rw [List.get?_set_eq_of_lt _ hlt] at h
    exact Or.inr ⟨rfl, (Option.some.inj h).symm⟩
  · rw [List.get?_set_ne _ _ hij] at h
    exact Or.inl h

theorem get?_set_keep {α : Type} {l : List α} {i j : Nat} {a b : α}
    (h : l.get? j = some b) (hab : a = b) : (l.set i a).get? j = some b := by
  by_cases hij : i = j
  · subst hij hab
    obtain ⟨hlt, _⟩ := List.get?_eq_some.mp h
    rw [List.get?_set_eq_of_lt _ hlt]
  · rw [List.get?_set_ne _ _ hij]
    exact h

/-- Some goroutine is inside the `once.Do` body. -/
def InOnceThread (s : MCState) : Prop :=
  (∃ i, s.wpc.get? i = some .inOnce) ∨ (∃ k, s.cancels.get? k = some .inOnce)

/-- Global invariant of the merged context: the done channel is closed iff
the once has been entered; any goroutine inside the once body already closed
the channel; `mc.err` can be non-nil only after the channel closed or some
input completed; and `mc.err` is only ever nil, `context.Canceled`, or the
verbatim `Err()` of one of the inputs. -/
def Inv (s : MCState) : Prop :=
  (s.done = true ↔ s.once ≠ .unused) ∧
  (InOnceThread s → s.done = true) ∧
  (s.merr ≠ none → s.done = true ∨ ∃ i, s.fired.get? i = some true) ∧
  (s.merr = none ∨ s.merr = some .canceled ∨ ∃ c ∈ s.ctxs, s.merr = some c.errv)

theorem inv_init (ctxs : List InputCtx) : Inv (init ctxs) := by
  refine ⟨by simp [init], ?_, by simp [init], Or.inl rfl⟩
  rintro (⟨i, hi⟩ | ⟨k, hk⟩)
  · rw [init] at hi
    dsimp only at hi
    rcases get?_rep : (List.replicate ctxs.length WPC.waiting).get? i with _ | w
    · rw [get?_rep] at hi; cases hi
    · rw [get?_rep] at hi
      have := List.eq_of_mem_replicate (List.get?_mem get?_rep)
      subst this
      cases hi
  · rw [init] at hk
    dsimp only at hk
    cases hk

/-- Each transition preserves the invariant. -/
theorem inv_step {a : Act} {s s' : MCState} (h : applyStep a s = some s')
    (hInv : Inv s) : Inv s' := by
  obtain ⟨hA, hB, hD, hF⟩ := hInv
  cases a with
  | fire i =>
    simp only [applyStep] at h
    split at h
    case _ heq =>
      injection h with h
      subst h
      refine ⟨hA, hB, ?_, hF⟩
      intro hm
      rcases hD hm with hd | ⟨j, hj⟩
      · exact Or.inl hd
      · exact Or.inr ⟨j, get?_set_keep hj rfl⟩
    case _ => cases h
  | selectInput i =>
    simp only [applyStep] at h
    split at h
    case _ c hw hf hc =>
      injection h with h
      subst h
      refine ⟨hA, ?_, ?_, ?_⟩
      · rintro (⟨j, hj⟩ | ⟨k, hk⟩)
        · rcases get?_set_cases hj with hj' | ⟨_, hj'⟩
          · exact hB (Or.inl ⟨j, hj'⟩)
          · cases hj'
        · exact hB (Or.inr ⟨k, hk⟩)
      · intro _
        exact Or.inr ⟨i, hf⟩
      · exact Or.inr (Or.inr ⟨c, List.get?_mem hc, rfl⟩)
    case _ => cases h
  | selectDone i =>
    simp only [applyStep] at h
    split at h
    case _ hw hd =>
      injection h with h
      subst h
      refine ⟨hA, ?_, hD, hF⟩
      rintro (⟨j, hj⟩ | ⟨k, hk⟩)
      · rcases get?_set_cases hj with hj' | ⟨_, hj'⟩
        · exact hB (Or.inl ⟨j, hj'⟩)
        · cases hj'
      · exact hB (Or.inr ⟨k, hk⟩)
    case _ => cases h
  | wEnterOnce i =>
    simp only [applyStep] at h
    split at h
    case _ hw ho =>
      injection h with h
      subst h
      refine ⟨by simp, fun _ => rfl, fun _ => Or.inl rfl, hF⟩
    case _ => cases h
  | wSkipOnce i =>
    simp only [applyStep] at h
    split at h
    case _ hw ho =>
      injection h with h
      subst h
      refine ⟨hA, ?_, hD, hF⟩
      rintro (⟨j, hj⟩ | ⟨k, hk⟩)
      · rcases get?_set_cases hj with hj' | ⟨_, hj'⟩
        · exact hB (Or.inl ⟨j, hj'⟩)
        · cases hj'
      · exact hB (Or.inr ⟨k, hk⟩)
    case _ => cases h
  | wOnceBody i =>
    simp only [applyStep] at h
    split at h
    case _ hw =>
      injection h with h
      subst h
      have hdone : s.done = true := hB (Or.inl ⟨i, hw⟩)
      refine ⟨by simp [hdone], fun _ => hdone, fun _ => Or.inl hdone, ?_⟩
      by_cases hm : s.merr = none
      · rw [if_pos hm]
        exact Or.inr (Or.inl rfl)
      · rw [if_neg hm]
        exact hF
    case _ => cases h
  | callCancel =>
    injection h with h
    subst h
    refine ⟨hA, ?_, hD, hF⟩
    rintro (⟨j, hj⟩ | ⟨k, hk⟩)
    · exact hB (Or.inl ⟨j, hj⟩)
    · cases k with
      | zero => cases hk
      | succ k' => exact hB (Or.inr ⟨k', hk⟩)
  | cEnterOnce k =>
    simp only [applyStep] at h
    split at h
    case _ hc ho =>
      injection h with h
      subst h
      refine ⟨by simp, fun _ => rfl, fun _ => Or.inl rfl, hF⟩
    case _ => cases h
  | cSkipOnce k =>
    simp only [applyStep] at h
    split at h
    case _ hc ho =>
      injection h with h
      subst h
      refine ⟨hA, ?_, hD, hF⟩
      rintro (⟨j, hj⟩ | ⟨k', hk'⟩)
      · exact hB (Or.inl ⟨j, hj⟩)
      · rcases get?_set_cases hk' with hk'' | ⟨_, hk''⟩
        · exact hB (Or.inr ⟨k', hk''⟩)
        · cases hk''
    case _ => cases h
  | cOnceBody k =>
    simp only [applyStep] at h
    split at h
    case _ hc =>
      injection h with h
      subst h
      have hdone : s.done = true := hB (Or.inr ⟨k, hc⟩)
      refine ⟨by simp [hdone], fun _ => hdone, fun _ => Or.inl hdone, ?_⟩
      by_cases hm : s.merr = none
      · rw [if_pos hm]
        exact Or.inr (Or.inl rfl)
      · rw [if_neg hm]
        exact hF
    case _ => cases h

/-- Running any action list preserves the invariant. -/
theorem inv_run {acts : List Act} {s s' : MCState} (h : run s acts = some s')
    (hInv : Inv s) : Inv s' := by
  induction acts generalizing s with
  | nil =>
    rw [run] at h
    injection h with h
    subst h
    exact hInv
  | cons a rest ih =>
    rw [run] at h
    cases ha : applyStep a s with
    | none => rw [ha] at h; cases h
    | some s₁ =>
      rw [ha] at h
      exact ih h (inv_step ha hInv)

/-- Every reachable state satisfies the invariant. -/
theorem reachable_inv {s : MCState} (h : Reachable s) : Inv s := by
  obtain ⟨ctxs, acts, hrun⟩ := h
  exact inv_run hrun (inv_init ctxs)

/-- Every single transition keeps the done channel closed once it is closed:
each step either leaves `done` unchanged or sets it to `true`. -/
theorem step_done_mono {a : Act} {s s' : MCState} (h : applyStep a s = some s')
    (hd : s.done = true) : s'.done = true := by
  cases a with
  | fire i =>
    simp only [applyStep] at h
    split at h
    · injection h with h; subst h; exact hd
    · cases h
  | selectInput i =>
    simp only [applyStep] at h
    split at h
    · injection h with h; subst h; exact hd
    · cases h
  | selectDone i =>
    simp only [applyStep] at h
    split at h
    · injection h with h; subst h; exact hd
    · cases h
  | wEnterOnce i =>
    simp only [applyStep] at h
    split at h
    · injection h with h; subst h; rfl
    · cases h
  | wSkipOnce i =>
    simp only [applyStep] at h
    split at h
    · injection h with h; subst h; exact hd
    · cases h
  | wOnceBody i =>
    simp only [applyStep] at h
    split at h
    · injection h with h; subst h; exact hd
    · cases h
  | callCancel =>
    injection h with h; subst h; exact hd
  | cEnterOnce k =>
    simp only [applyStep] at h
    split at h
    · injection h with h; subst h; rfl
    · cases h
  | cSkipOnce k =>
    simp only [applyStep] at h
    split at h
    · injection h with h; subst h; exact hd
    · cases h
  | cOnceBody k =>
    simp only [applyStep] at h
    split at h
    · injection h with h; subst h; exact hd
    · cases h

/-- Claim C7: the merged context is a one-way two-state machine: it starts
with the done channel open (`Active`), and in any execution, once the done
channel is closed (`Done`) it stays closed through every further step — the
context never returns to the Active state. -/
theorem done_monotone (ctxs : List InputCtx) (s s' : MCState) (acts : List Act)
    (hrun : run s acts = some s') :
    (init ctxs).done = false ∧ (s.done = true → s'.done = true) := by
  refine ⟨rfl, ?_⟩
  induction acts generalizing s with
  | nil =>
    rw [run] at hrun
    injection hrun with hrun
    subst hrun
    exact id
  | cons a rest ih =>
    rw [run] at hrun
    cases ha : applyStep a s with
    | none => rw [ha] at hrun; cases hrun
    | some s₁ =>
      rw [ha] at hrun
      intro hd
      exact ih s₁ hrun (step_done_mono ha hd)

/-- An input context that carries only an error, used in concrete runs. -/
def errCtx (e : GoError) : InputCtx := ⟨none, e, fun _ => none⟩

/-- State of `MultiContext()` (zero inputs) after the caller invokes the
returned cancel function: one pending invocation, nothing else happened. -/
def cw0 : MCState := ⟨[], [], [], false, none, .unused, [.start]⟩

/-- `cw0` after the cancel invocation entered the once body and closed the
done channel. -/
def cw1 : MCState := ⟨[], [], [], true, none, .running, [.inOnce]⟩

/-- `cw1` after the once body finished: the error defaulted to Canceled. -/
def cw2 : MCState := ⟨[], [], [], true, some .canceled, .used, [.finished]⟩

/-- `cw2` after the caller invokes the cancel function a second time. -/
def cw3 : MCState := ⟨[], [], [], true, some .canceled, .used, [.start, .finished]⟩

/-- `cw3` after the second invocation observed the used once and returned. -/
def cw4 : MCState := ⟨[], [], [], true, some .canceled, .used, [.finished, .finished]⟩

theorem done_monotone_witness :
    (init []).done = false ∧ (cw1.done = true → cw2.done = true) :=
  done_monotone [] cw1 cw2 [.cOnceBody 0] rfl

/-- Claim C3: the returned cancel function is idempotent.  A first invocation
that runs the once body closes the done channel and records Canceled when no
error is recorded yet (keeping a recorded error otherwise); once the once is
used, a further invocation cannot enter the body and its return step changes
no shared state, leaving the done channel closed and the error slot exactly
as it was. -/
theorem cancel_idempotent (s : MCState) (hreach : Reachable s) :
    (∀ k s₁ s₂, applyStep (.cEnterOnce k) s = some s₁ →
        applyStep (.cOnceBody k) s₁ = some s₂ →
        s₂.done = true ∧ s₂.once = .used ∧
        (s.merr = none → s₂.merr = some .canceled) ∧
        (s.merr ≠ none → s₂.merr = s.merr)) ∧
    (s.once = .used →
      (∀ k, applyStep (.cEnterOnce k) s = none) ∧
      (∀ k s', applyStep (.cSkipOnce k) s = some s' →
        s'.done = true ∧ s'.merr = s.merr ∧ s'.fired = s.fired ∧
        s'.wpc = s.wpc ∧ s'.once = s.once ∧ s'.ctxs = s.ctxs)) := by
  constructor
  · intro k s₁ s₂ h1 h2
    simp only [applyStep] at h1
    split at h1
    case _ hck ho =>
      injection h1 with h1
      subst h1
      simp only [applyStep] at h2
      split at h2
      case _ hck2 =>
        injection h2 with h2
        subst h2
        refine ⟨rfl, rfl, ?_, ?_⟩
        · intro hm
          rw [if_pos hm]
        · intro hm
          rw [if_neg hm]
      case _ => cases h2
    case _ => cases h1
  · intro hused
    have hdone : s.done = true := by
      rcases (reachable_inv hreach).1 with ⟨_, h2⟩
      exact h2 (by rw [hused]; intro hc; cases hc)
    constructor
    · intro k
      simp only [applyStep, hused]
      rcases hck : s.cancels.get? k with _ | c
      · rfl
      · cases c <;> rfl
    · intro k s' h
      simp only [applyStep] at h
      split at h
      case _ hck ho =>
        injection h with h
        subst h
        exact ⟨hdone, rfl, rfl, rfl, rfl, rfl⟩
      case _ => cases h

theorem cancel_idempotent_witness :
    Reachable cw0 ∧ Reachable cw3 ∧
    (cw2.done = true ∧ cw2.once = .used ∧
      (cw0.merr = none → cw2.merr = some .canceled) ∧
      (cw0.merr ≠ none → cw2.merr = cw0.merr)) ∧
    applyStep (.cEnterOnce 0) cw3 = none ∧
    (cw4.done = true ∧ cw4.merr = cw3.merr ∧ cw4.fired = cw3.fired ∧
      cw4.wpc = cw3.wpc ∧ cw4.once = cw3.once ∧ cw4.ctxs = cw3.ctxs) := by
  have h0 : Reachable cw0 := ⟨[], [.callCancel], rfl⟩
  have h3 : Reachable cw3 :=
    ⟨[], [.callCancel, .cEnterOnce 0, .cOnceBody 0, .callCancel], rfl⟩
  exact ⟨h0, h3,
    (cancel_idempotent cw0 h0).1 0 cw1 cw2 rfl rfl,
    ((cancel_idempotent cw3 h3).2 rfl).1 0,
    ((cancel_idempotent cw3 h3).2 rfl).2 0 cw4 rfl⟩

/-- The two inputs of the error-overwrite run: the first reports
DeadlineExceeded, the second some other error. -/
def raceCtxs : List InputCtx := [errCtx .deadlineExceeded, errCtx (.other 1)]

/-- Claim C4 is violated by the code: after input 0 completes, its watcher
records DeadlineExceeded and closes the gate (first run), yet when input 1
also completes, its watcher — whose select may still take the input branch —
overwrites `mc.err` with input 1's error after the gate closed (second run).
The error slot thus changes from one concrete value to another. -/
theorem err_overwritten_after_commit :
    (run (init raceCtxs) [.fire 0, .selectInput 0, .wEnterOnce 0, .wOnceBody 0]).map
      (fun s => (s.done, s.merr)) = some (true, some .deadlineExceeded) ∧
    (run (init raceCtxs)
        [.fire 0, .selectInput 0, .wEnterOnce 0, .wOnceBody 0, .fire 1, .selectInput 1]).map
      (fun s => (s.done, s.merr)) = some (true, some (.other 1)) :=
  ⟨rfl, rfl⟩

/-- Claim C5 is violated by the code: `cancel` runs `close(mc.done)` before
the `mc.err = context.Canceled` default, so after the caller's cancel
invocation has closed the channel but not yet committed the error, the done
signal is observable while `mc.err` is still nil. -/
theorem done_closed_err_unset :
    (run (init []) [.callCancel, .cEnterOnce 0]).map (fun s => (s.done, s.merr))
      = some (true, none) :=
  rfl

/-- The single input of the release-race run, reporting DeadlineExceeded. -/
def dlxCtxs : List InputCtx := [errCtx .deadlineExceeded]

/-- Claim C6 as stated is violated: the explicit cancel invocation reaches
the gate first (no input fired yet; the error becomes Canceled), but the
watcher of the input that completes afterwards still overwrites `mc.err`, so
in the settled final state (all goroutines finished) the error is the
input's DeadlineExceeded, not the generic Canceled. -/
theorem release_first_err_overwritten :
    (run (init dlxCtxs) [.callCancel, .cEnterOnce 0, .cOnceBody 0]).map
      (fun s => (s.done, s.merr, s.once, s.fired))
      = some (true, some .canceled, .used, [false]) ∧
    (run (init dlxCtxs)
        [.callCancel, .cEnterOnce 0, .cOnceBody 0, .fire 0, .selectInput 0, .wSkipOnce 0]).map
      (fun s => (s.merr, s.wpc, s.cancels))
      = some (some .deadlineExceeded, [.finished], [.finished]) :=
  ⟨rfl, rfl⟩

/-- Claim C6 (amended): the merged error is never transformed, wrapped or
aggregated — in every reachable state `mc.err` is nil, the generic Canceled,
or the verbatim `Err()` value of one of the inputs; but when the explicit
cancel reaches the gate first, the Canceled it records may still be
overwritten later by the verbatim error of an input that also completes. -/
theorem merged_err_verbatim (s : MCState) (h : Reachable s) :
    s.merr = none ∨ s.merr = some .canceled ∨ ∃ c ∈ s.ctxs, s.merr = some c.errv :=
  (reachable_inv h).2.2.2

/-- State of the one-input merge after the input fires and its watcher
records the error but has not yet called `cancel`. -/
def c6state : MCState :=
  ⟨dlxCtxs, [true], [.cancelCall], false, some .deadlineExceeded, .unused, []⟩

theorem merged_err_verbatim_witness :
    c6state.merr = none ∨ c6state.merr = some .canceled ∨
      ∃ c ∈ c6state.ctxs, c6state.merr = some c.errv :=
  merged_err_verbatim c6state ⟨dlxCtxs, [.fire 0, .selectInput 0], rfl⟩

/-- Claim C8 as stated is violated: after an input fires, its watcher writes
`mc.err = ctx.Err()` before calling `cancel`, so there is a reachable state
in which the done channel is still open yet `Err()` already returns the
input's error rather than nil. -/
theorem err_nonnil_before_done :
    (run (init [errCtx (.other 7)]) [.fire 0, .selectInput 0]).map
      (fun s => (s.done, s.merr)) = some (false, some (.other 7)) :=
  rfl

/-- Claim C8 (amended): `Err()` never fabricates an error: in any reachable
state in which the done channel is still open and no input has completed,
`mc.err` is still nil.  (Once some input completes, its watcher may write the
error slot just before closing the gate, so non-nil can be observed slightly
before done.) -/
theorem err_unset_before_completion (s : MCState) (h : Reachable s)
    (hd : s.done = false) (hf : ∀ i, s.fired.get? i ≠ some true) :
    s.merr = none := by
  by_contra hm
  rcases (reachable_inv h).2.2.1 hm with h1 | ⟨i, hi⟩
  · rw [hd] at h1; cases h1
  · exact hf i hi

theorem err_unset_before_completion_witness :
    (init []).merr = none :=
  err_unset_before_completion (init []) ⟨[], [], rfl⟩ rfl
    (by intro i h; cases h)

/-- Claim C9: no operation of the merged context mutates any input context:
every transition leaves the input list untouched, and every transition other
than an input's own completion (`fire`, which is the input acting, not the
merged context) also leaves the inputs' done-channels untouched.  `Deadline`
and `Value` are pure functions of the input list and modify nothing. -/
theorem inputs_never_mutated :
    (∀ (a : Act) (s s' : MCState), applyStep a s = some s' →
      s'.ctxs = s.ctxs ∧ ((∀ i, a ≠ Act.fire i) → s'.fired = s.fired)) ∧
    (∀ (s s' : MCState) (acts : List Act), run s acts = some s' →
      s'.ctxs = s.ctxs) := by
  have hstep : ∀ (a : Act) (s s' : MCState), applyStep a s = some s' →
      s'.ctxs = s.ctxs ∧ ((∀ i, a ≠ Act.fire i) → s'.fired = s.fired) := by
    intro a s s' h
    cases a with
    | fire i =>
      simp only [applyStep] at h
      split at h
      · injection h with h; subst h
        exact ⟨rfl, fun hne => absurd rfl (hne i)⟩
      · cases h
    | selectInput i =>
      simp only [applyStep] at h
      split at h
      · injection h with h; subst h; exact ⟨rfl, fun _ => rfl⟩
      · cases h
    | selectDone i =>
      simp only [applyStep] at h
      split at h
      · injection h with h; subst h; exact ⟨rfl, fun _ => rfl⟩
      · cases h
    | wEnterOnce i =>
      simp only [applyStep] at h
      split at h
      · injection h with h; subst h; exact ⟨rfl, fun _ => rfl⟩
      · cases h
    | wSkipOnce i =>
      simp only [applyStep] at h
      split at h
      · injection h with h; subst h; exact ⟨rfl, fun _ => rfl⟩
      · cases h
    | wOnceBody i =>
      simp only [applyStep] at h
      split at h
      · injection h with h; subst h; exact ⟨rfl, fun _ => rfl⟩
      · cases h
    | callCancel =>
      injection h with h; subst h; exact ⟨rfl, fun _ => rfl⟩
    | cEnterOnce k =>
      simp only [applyStep] at h
      split at h
      · injection h with h; subst h; exact ⟨rfl, fun _ => rfl⟩
      · cases h
    | cSkipOnce k =>
      simp only [applyStep] at h
      split at h
      · injection h with h; subst h; exact ⟨rfl, fun _ => rfl⟩
      · cases h
    | cOnceBody k =>
      simp only [applyStep] at h
      split at h
      · injection h with h; subst h; exact ⟨rfl, fun _ => rfl⟩
      · cases h
  refine ⟨hstep, ?_⟩
  intro s s' acts h
  induction acts generalizing s with
  | nil =>
    rw [run] at h
    injection h with h
    subst h
    rfl
  | cons a rest ih =>
    rw [run] at h
    cases ha : applyStep a s with
    | none => rw [ha] at h; cases h
    | some s₁ =>
      rw [ha] at h
      exact (ih s₁ h).trans (hstep a s s₁ ha).1

theorem inputs_never_mutated_witness :
    (cw0.ctxs = (init []).ctxs ∧
      ((∀ i, Act.callCancel ≠ Act.fire i) → cw0.fired = (init []).fired)) ∧
    cw0.ctxs = (init []).ctxs :=
  ⟨inputs_never_mutated.1 .callCancel (init []) cw0 rfl,
    inputs_never_mutated.2 (init []) cw0 [.callCancel] rfl⟩

end Contextutil
